import Mathlib

/-!
# json-toolkit: a shallow embedding

This file embeds the core of the `json-toolkit` Rust crate:

* `src/pointer.rs` — the RFC6901 `Pointer` type: construction, `key`,
  `parent`, `ancestors`, `depth`, `tokenize`, the depth-first ordering,
  and the `decode_token` unescaping;
* `src/lib.rs` — the `ValueExt` trait with the default `insert_at`;
* `src/json/mod.rs` — the `json`-crate back-end (`pointer`, `pointer_mut`,
  `insert`);
* `src/serde/mod.rs` — the `serde_json` back-end, which delegates
  resolution to `serde_json::Value::pointer`.

Rust strings are modelled as `List Char` (all the operations involved are
character-level and `/`, `~`, `0`, `1` are ASCII, so byte order and
code-point order agree). In-place mutation through `pointer_mut` is
modelled as a functional rebuild of the tree (`modifyAt`): the returned
tree is the tree after the mutation of the addressed node.
-/

/-- Coerce a string literal to the `List Char` model of Rust strings. -/
def cs (s : String) : List Char := s.data

/-- The error enum of `src/error.rs`. -/
inductive Error where
  | missingLeadingBackslash
  | unsupportedInsertion
  | keyNotFound
deriving DecidableEq, Repr

/-- Rust `str::split(c)`: the list of `c`-separated fragments; on the empty
string it yields one empty fragment, exactly as Rust's `split`. -/
def splitOnChar (c : Char) : List Char → List (List Char)
  | [] => [[]]
  | x :: rest =>
    let r := splitOnChar c rest
    if x = c then [] :: r
    else
      match r with
      | [] => [[x]]
      | h :: t => (x :: h) :: t

/-- Rust `str::match_indices(c)` (first components): the ascending list of
positions of `c` in the string. -/
def matchIndices (c : Char) : List Char → List Nat
  | [] => []
  | x :: rest =>
    let r := (matchIndices c rest).map (· + 1)
    if x = c then 0 :: r else r

/-- Rust `str::rsplit_once(c)`: splits at the last occurrence of `c`,
returning the parts before and after it; `none` when `c` does not occur. -/
def rsplitOnce (c : Char) : List Char → Option (List Char × List Char)
  | [] => none
  | x :: rest =>
    match rsplitOnce c rest with
    | some (b, a) => some (x :: b, a)
    | none => if x = c then some ([], rest) else none

/-- Rust `str::replace(pat, rep)` for a two-character pattern `[a, b]` and a
one-character replacement `r`: replaces every non-overlapping occurrence,
scanning left to right. -/
def replace2 (a b r : Char) : List Char → List Char
  | [] => []
  | [x] => [x]
  | x :: y :: rest =>
    if x = a ∧ y = b then r :: replace2 a b r rest
    else x :: replace2 a b r (y :: rest)

/-- `decode_token` from `src/pointer.rs`:
`s.replace("~1", "/").replace("~0", "~")` — first every `~1` becomes `/`,
then, in a second independent scan, every `~0` becomes `~`. -/
def decodeToken (s : List Char) : List Char :=
  replace2 '~' '0' '~' (replace2 '~' '1' '/' s)

/-- Rust `str::parse::<usize>()` (as used by the `json` back-end for array
indices): an optional leading `+`, then one or more ASCII digits, value
below `2 ^ 64`; anything else is a parse failure. -/
def parseUsize (s : List Char) : Option Nat :=
  let digits := match s with
    | '+' :: rest => rest
    | _ => s
  if digits ≠ [] ∧ digits.all Char.isDigit then
    let n := digits.foldl (fun acc c => acc * 10 + (c.toNat - '0'.toNat)) 0
    if n < 2 ^ 64 then some n else none
  else none

/-- `parse_index` from `serde_json`'s pointer implementation (the external
function `src/serde/mod.rs` delegates to): rejects a leading `+` and any
multi-character token starting with `0`, then falls back to
`str::parse::<usize>()`. -/
def parseIndex (s : List Char) : Option Nat :=
  match s with
  | '+' :: _ => none
  | '0' :: _ :: _ => none
  | _ => parseUsize s

namespace Pointer

/-- `Pointer::new` from `src/pointer.rs`: rejects a non-empty string that
does not start with `/`, otherwise stores the string unchanged. -/
def new (s : List Char) : Except Error (List Char) :=
  if s ≠ [] ∧ s.head? ≠ some '/' then .error .missingLeadingBackslash
  else .ok s

/-- The well-formedness guaranteed by `Pointer::new`: the stored string is
empty or starts with `/`. -/
def Valid (s : List Char) : Prop := s = [] ∨ s.head? = some '/'

instance : DecidablePred Valid := fun s => by
  unfold Valid; infer_instance

/-- `Pointer::root`. -/
def root : List Char := []

/-- `Pointer::is_root`. -/
def isRoot (s : List Char) : Bool := s.isEmpty

/-- `Pointer::key`: the decoded token after the last `/`; `none` when the
string has no `/` (the root). -/
def key (s : List Char) : Option (List Char) :=
  (rsplitOnce '/' s).map (fun q => decodeToken q.2)

/-- `Pointer::parent`: everything before the last `/`; `none` when the
string has no `/` (the root). -/
def parent (s : List Char) : Option (List Char) :=
  (rsplitOnce '/' s).map (·.1)

/-- `Pointer::ancestors`: the slash positions, then the total length,
reversed, each mapped to the prefix of the string of that length. -/
def ancestors (s : List Char) : List (List Char) :=
  ((matchIndices '/' s ++ [s.length]).reverse).map (fun i => s.take i)

/-- `Pointer::is_ancestor_of`. -/
def isAncestorOf (a other : List Char) : Prop := a ∈ ancestors other

instance (a other : List Char) : Decidable (isAncestorOf a other) := by
  unfold isAncestorOf; infer_instance

/-- `Pointer::is_parent_of`. -/
def isParentOf (a other : List Char) : Prop := parent other = some a

instance (a other : List Char) : Decidable (isParentOf a other) := by
  unfold isParentOf; infer_instance

/-- `Pointer::depth`: `split('/').skip(1).count()`. -/
def depth (s : List Char) : Nat := (splitOnChar '/' s).tail.length

/-- `Pointer::tokenize`: `split('/').skip(1).map(decode_token)`. -/
def tokenize (s : List Char) : List (List Char) :=
  (splitOnChar '/' s).tail.map decodeToken

/-- Lexicographic comparison of the underlying strings (Rust's `str` order;
UTF-8 byte order coincides with code-point order). -/
def cmpChars : List Char → List Char → Ordering
  | [], [] => .eq
  | [], _ :: _ => .lt
  | _ :: _, [] => .gt
  | x :: xs, y :: ys =>
    match compare x y with
    | .eq => cmpChars xs ys
    | o => o

/-- `Ord for Pointer` from `src/pointer.rs`: depth first, then the
underlying strings. -/
def cmp (p q : List Char) : Ordering :=
  match compare (depth p) (depth q) with
  | .eq => cmpChars p q
  | o => o

end Pointer

/-- Fuel-indexed chain of iterated parents (the fuel only bounds the
recursion; the string's length always suffices, since each parent is a
strict prefix). -/
def ancestorsWithFuel : Nat → List Char → List (List Char)
  | 0, s => [s]
  | fuel + 1, s =>
    match rsplitOnce '/' s with
    | some (b, _) => s :: ancestorsWithFuel fuel b
    | none => [s]

/-- The chain self, parent, grandparent, … — shown below to coincide with
`Pointer.ancestors`, the translation of the Rust iterator. -/
def ancestorsRec (s : List Char) : List (List Char) := ancestorsWithFuel s.length s

/-- A generic JSON tree value (the variant set shared by the `json` crate
and `serde_json`). Objects are insertion-ordered key/value lists; numbers
and strings are opaque leaves for the purposes of this development. -/
inductive JsonValue where
  | null
  | bool (b : Bool)
  | num (n : Int)
  | str (s : List Char)
  | array (xs : List JsonValue)
  | object (fields : List (List Char × JsonValue))

/-- Whether the value is an object/map. -/
def JsonValue.isObject : JsonValue → Bool
  | .object _ => true
  | _ => false

/-- Whether the value is an array. -/
def JsonValue.isArray : JsonValue → Bool
  | .array _ => true
  | _ => false

/-- `Object::get` on the association-list model: the value of the first
entry with the given key. -/
def lookupKey (k : List Char) : List (List Char × JsonValue) → Option JsonValue
  | [] => none
  | (k0, v0) :: rest => if k0 = k then some v0 else lookupKey k rest

/-- `Object::remove` on the association-list model: drops the entries with
the given key (the crate's objects hold each key at most once). -/
def removeKey (k : List Char) : List (List Char × JsonValue) → List (List Char × JsonValue)
  | [] => []
  | (k0, v0) :: rest =>
    if k0 = k then removeKey k rest else (k0, v0) :: removeKey k rest

/-- Replace the value of the first entry with the given key (used to model
mutation through a `&mut` obtained from an object lookup). -/
def setKeyFirst (k : List Char) (x : JsonValue) :
    List (List Char × JsonValue) → List (List Char × JsonValue)
  | [] => []
  | (k0, v0) :: rest =>
    if k0 = k then (k0, x) :: rest else (k0, v0) :: setKeyFirst k x rest

/-- The `try_fold` of `ValueExt::pointer` for `json::JsonValue`
(`src/json/mod.rs`): at an object look the decoded token up as a key, at an
array parse it with `str::parse::<usize>()` and index, at anything else
stop with `none`. -/
def resolveTokens : JsonValue → List (List Char) → Option JsonValue
  | v, [] => some v
  | .object fields, t :: ts =>
    match lookupKey t fields with
    | some child => resolveTokens child ts
    | none => none
  | .array xs, t :: ts =>
    match parseUsize t with
    | some i =>
      match xs[i]? with
      | some child => resolveTokens child ts
      | none => none
    | none => none
  | _, _ :: _ => none

/-- `ValueExt::pointer` (and `pointer_mut`, which has the same traversal)
for `json::JsonValue`: the whole tree at the root pointer, otherwise the
fold over the decoded tokens. -/
def jsonPointer (v : JsonValue) (p : List Char) : Option JsonValue :=
  if Pointer.isRoot p then some v else resolveTokens v (Pointer.tokenize p)

/-- The `try_fold` of `serde_json::Value::pointer` (the external function
`src/serde/mod.rs` delegates to): identical to the `json` back-end's,
except that array indices go through `parse_index`. -/
def resolveTokensSerde : JsonValue → List (List Char) → Option JsonValue
  | v, [] => some v
  | .object fields, t :: ts =>
    match lookupKey t fields with
    | some child => resolveTokensSerde child ts
    | none => none
  | .array xs, t :: ts =>
    match parseIndex t with
    | some i =>
      match xs[i]? with
      | some child => resolveTokensSerde child ts
      | none => none
    | none => none
  | _, _ :: _ => none

/-- `serde_json::Value::pointer`: empty pointer yields the whole tree, a
non-`/`-leading pointer yields `none`, otherwise the fold over the decoded
tokens (serde_json decodes each token with the same `~1`-then-`~0`
replacement). -/
def serdePointer (v : JsonValue) (p : List Char) : Option JsonValue :=
  if p = [] then some v
  else if p.head? ≠ some '/' then none
  else resolveTokensSerde v (Pointer.tokenize p)

/-- `ValueExt::insert` for `json::JsonValue` (`src/json/mod.rs`): on an
object, remove the key (capturing the previous value) and insert the new
entry; on anything else fail with `UnsupportedInsertion` leaving the value
unchanged. Returns the Rust result paired with the value after the call. -/
def insertKV (node : JsonValue) (k : List Char) (nv : JsonValue) :
    Except Error (Option JsonValue) × JsonValue :=
  match node with
  | .object fields =>
    (.ok (lookupKey k fields), .object (removeKey k fields ++ [(k, nv)]))
  | _ => (.error .unsupportedInsertion, node)

/-- Mutation at the node addressed by a token list: resolves exactly like
`resolveTokens` and applies `f` to the addressed node, rebuilding the tree
around the node's replacement; `none` when the path does not resolve. -/
def modifyAt (f : JsonValue → Except Error (Option JsonValue) × JsonValue) :
    JsonValue → List (List Char) → Option (Except Error (Option JsonValue) × JsonValue)
  | v, [] => some (f v)
  | .object fields, t :: ts =>
    match lookupKey t fields with
    | some child =>
      (modifyAt f child ts).map
        (fun r => (r.1, .object (setKeyFirst t r.2 fields)))
    | none => none
  | .array xs, t :: ts =>
    match parseUsize t with
    | some i =>
      match xs[i]? with
      | some child =>
        (modifyAt f child ts).map (fun r => (r.1, .array (xs.set i r.2)))
      | none => none
    | none => none
  | _, _ :: _ => none

/-- `pointer_mut` followed by an action on the addressed node: the root
pointer addresses the whole tree, otherwise the decoded tokens are
traversed. -/
def modifyAtPtr (v : JsonValue) (p : List Char)
    (f : JsonValue → Except Error (Option JsonValue) × JsonValue) :
    Option (Except Error (Option JsonValue) × JsonValue) :=
  if Pointer.isRoot p then some (f v) else modifyAt f v (Pointer.tokenize p)

/-- The default `ValueExt::insert_at` of `src/lib.rs`, instantiated at the
`json` back-end: at the root pointer swap in the new value and return the
previous tree; otherwise resolve the parent pointer mutably and `insert`
under the decoded terminal key, failing with `KeyNotFound` when the parent
path does not resolve. Returns the Rust result paired with the tree after
the call. (The `none` branch of `rsplitOnce` is unreachable for the valid
strings a `Pointer` can hold: a valid non-root pointer contains a `/`.) -/
def insertAt (v : JsonValue) (p : List Char) (nv : JsonValue) :
    Except Error (Option JsonValue) × JsonValue :=
  if Pointer.isRoot p then (.ok (some v), nv)
  else
    match rsplitOnce '/' p with
    | some (pp, t) =>
      match modifyAtPtr v pp (fun node => insertKV node (decodeToken t) nv) with
      | some r => r
      | none => (.error .keyNotFound, v)
    | none => (.error .keyNotFound, v)

/-- The fields of the tree of the spec's resolution example. -/
def exFields : List (List Char × JsonValue) :=
  [(cs "foo", .str (cs "bar")),
   (cs "zoo", .object [(cs "id", .array [.num 1, .num 2, .num 3])])]

/-- The tree of the spec's resolution example:
the JSON document with key foo mapped to bar and key zoo mapped to an
object whose id is the array 1, 2, 3. -/
def exampleTree : JsonValue := .object exFields

/-- A reference token on which `str::parse::<usize>()` and serde_json's
`parse_index` cannot disagree: no leading plus sign, and a token starting
with the digit zero is exactly the single digit zero. -/
def canonicalIndexTok (t : List Char) : Prop :=
  t.head? ≠ some '+' ∧ (t.head? = some '0' → t.length = 1)

instance (t : List Char) : Decidable (canonicalIndexTok t) := by
  unfold canonicalIndexTok; infer_instance

/-! ## List helpers -/

theorem list_set_self {α : Type} : ∀ (xs : List α) (i : Nat) (x : α),
    xs[i]? = some x → xs.set i x = xs
  | [], i, x, h => by simp at h
  | y :: ys, 0, x, h => by simp_all
  | y :: ys, i + 1, x, h => by
    rw [List.getElem?_cons_succ] at h
    simp [List.set, list_set_self ys i x h]

theorem list_tail_append {α : Type} (A B : List α) (h : A ≠ []) :
    (A ++ B).tail = A.tail ++ B := by
  cases A with
  | nil => exact absurd rfl h
  | cons a as => simp

/-! ## splitOnChar and matchIndices -/

theorem splitOnChar_ne_nil (c : Char) : ∀ s : List Char, splitOnChar c s ≠ []
  | [] => by simp [splitOnChar]
  | x :: rest => by
    simp only [splitOnChar]
    cases hr : splitOnChar c rest with
    | nil => exact absurd hr (splitOnChar_ne_nil c rest)
    | cons h t => split <;> simp

theorem splitOnChar_no (c : Char) : ∀ s : List Char, c ∉ s → splitOnChar c s = [s]
  | [], _ => rfl
  | x :: rest, h => by
    have hx : ¬x = c := fun hc => h (by simp [hc])
    have hrest : c ∉ rest := fun hc => h (List.mem_cons_of_mem _ hc)
    simp only [splitOnChar, if_neg hx, splitOnChar_no c rest hrest]

theorem splitOnChar_append (c : Char) :
    ∀ (u w : List Char), splitOnChar c (u ++ c :: w) = splitOnChar c u ++ splitOnChar c w
  | [], w => by simp [splitOnChar]
  | x :: u, w => by
    have IH := splitOnChar_append c u w
    by_cases hx : x = c
    · simp only [List.cons_append, splitOnChar, if_pos hx, List.append_eq, IH]
    · simp only [List.cons_append, splitOnChar, if_neg hx, List.append_eq, IH]
      cases hu : splitOnChar c u with
      | nil => exact absurd hu (splitOnChar_ne_nil c u)
      | cons h t => simp [hu]

theorem splitOnChar_length (c : Char) :
    ∀ s : List Char, (splitOnChar c s).length = (matchIndices c s).length + 1
  | [] => rfl
  | x :: rest => by
    simp only [splitOnChar, matchIndices]
    by_cases hx : x = c
    · simp [hx, splitOnChar_length c rest]
    · simp only [if_neg hx]
      cases hu : splitOnChar c rest with
      | nil => exact absurd hu (splitOnChar_ne_nil c rest)
      | cons h t =>
        have := splitOnChar_length c rest
        rw [hu] at this
        simpa using this

theorem matchIndices_append (c : Char) : ∀ (u v : List Char),
    matchIndices c (u ++ v) = matchIndices c u ++ (matchIndices c v).map (· + u.length)
  | [], v => by simp [matchIndices]
  | x :: u, v => by
    have IH := matchIndices_append c u v
    have hcomp : ∀ l : List Nat,
        (l.map (· + u.length)).map (· + 1) = l.map (· + (x :: u).length) := by
      intro l
      rw [List.map_map]
      apply List.map_congr_left
      intro i _
      simp [Function.comp]
      omega
    by_cases hx : x = c
    · simp only [List.cons_append, matchIndices, if_pos hx, List.append_eq, IH,
        List.map_append, hcomp]
    · simp only [List.cons_append, matchIndices, if_neg hx, List.append_eq, IH,
        List.map_append, hcomp]

theorem matchIndices_nil (c : Char) :
    ∀ s : List Char, matchIndices c s = [] ↔ c ∉ s
  | [] => by simp [matchIndices]
  | x :: rest => by
    have IH := matchIndices_nil c rest
    simp only [matchIndices]
    by_cases hx : x = c
    · simp [hx]
    · have hcx : ¬c = x := fun hc => hx hc.symm
      simp only [if_neg hx, List.map_eq_nil_iff, IH, List.mem_cons]
      tauto

theorem matchIndices_lt (c : Char) : ∀ (s : List Char) (i : Nat),
    i ∈ matchIndices c s → i < s.length
  | [], i, h => by simp [matchIndices] at h
  | x :: rest, i, h => by
    simp only [matchIndices] at h
    by_cases hx : x = c
    · rw [if_pos hx] at h
      rcases List.mem_cons.mp h with h0 | hmem
      · simp [h0]
      · rcases List.mem_map.mp hmem with ⟨j, hj, rfl⟩
        have := matchIndices_lt c rest j hj
        simp only [List.length_cons]
        omega
    · rw [if_neg hx] at h
      rcases List.mem_map.mp h with ⟨j, hj, rfl⟩
      have := matchIndices_lt c rest j hj
      simp only [List.length_cons]
      omega

/-! ## rsplitOnce -/

theorem rsplitOnce_none (c : Char) :
    ∀ s : List Char, rsplitOnce c s = none ↔ c ∉ s
  | [] => by simp [rsplitOnce]
  | x :: rest => by
    have IH := rsplitOnce_none c rest
    simp only [rsplitOnce]
    cases hr : rsplitOnce c rest with
    | some p =>
      obtain ⟨b, a⟩ := p
      have hc : c ∈ rest := by
        by_contra hcc
        rw [IH.mpr hcc] at hr
        simp at hr
      simp [hc]
    | none =>
      have hrest : c ∉ rest := IH.mp hr
      by_cases hx : x = c
      · simp [hx]
      · have hcx : ¬c = x := fun hcc => hx hcc.symm
        simp [hx, hcx, hrest]

theorem rsplitOnce_eq (c : Char) : ∀ (s b a : List Char),
    rsplitOnce c s = some (b, a) → s = b ++ c :: a ∧ c ∉ a
  | [], b, a, h => by simp [rsplitOnce] at h
  | x :: rest, b, a, h => by
    simp only [rsplitOnce] at h
    cases hr : rsplitOnce c rest with
    | some p =>
      obtain ⟨b', a'⟩ := p
      rw [hr] at h
      simp only [Option.some.injEq, Prod.mk.injEq] at h
      obtain ⟨hb, ha⟩ := h
      subst hb; subst ha
      have IH := rsplitOnce_eq c rest b' a' hr
      exact ⟨by simp [IH.1], IH.2⟩
    | none =>
      rw [hr] at h
      have hrest : c ∉ rest := (rsplitOnce_none c rest).mp hr
      by_cases hx : x = c
      · rw [if_pos hx] at h
        simp only [Option.some.injEq, Prod.mk.injEq] at h
        obtain ⟨hb, ha⟩ := h
        subst hb; subst ha
        simp [hx, hrest]
      · rw [if_neg hx] at h
        simp at h

theorem rsplitOnce_of (c : Char) : ∀ (b a : List Char), c ∉ a →
    rsplitOnce c (b ++ c :: a) = some (b, a)
  | [], a, h => by
    simp only [List.nil_append, rsplitOnce]
    rw [(rsplitOnce_none c a).mpr h]
    simp
  | x :: b, a, h => by
    simp only [List.cons_append, rsplitOnce, List.append_eq, rsplitOnce_of c b a h]

theorem rsplitOnce_length (c : Char) (s b a : List Char)
    (h : rsplitOnce c s = some (b, a)) : b.length < s.length := by
  have := (rsplitOnce_eq c s b a h).1
  subst this
  simp

/-! ## ancestors: a recursive characterization -/

theorem ancestorsWithFuel_eq : ∀ (fuel : Nat) (s : List Char) (g : Nat),
    s.length ≤ fuel → s.length ≤ g →
    ancestorsWithFuel fuel s = ancestorsWithFuel g s
  | 0, s, g, hf, hg => by
    have hs : s = [] := List.eq_nil_of_length_eq_zero (by omega)
    subst hs
    cases g with
    | zero => rfl
    | succ g0 => simp [ancestorsWithFuel, rsplitOnce]
  | fuel + 1, s, g, hf, hg => by
    cases hsp : rsplitOnce '/' s with
    | none =>
      cases g with
      | zero =>
        have hs : s = [] := List.eq_nil_of_length_eq_zero (by omega)
        subst hs
        simp [ancestorsWithFuel, rsplitOnce]
      | succ g0 => simp [ancestorsWithFuel, hsp]
    | some q =>
      obtain ⟨b, a⟩ := q
      have hlt : b.length < s.length := rsplitOnce_length '/' s b a hsp
      cases g with
      | zero =>
        have hs : s = [] := List.eq_nil_of_length_eq_zero (by omega)
        subst hs
        simp [rsplitOnce] at hsp
      | succ g0 =>
        simp only [ancestorsWithFuel, hsp]
        rw [ancestorsWithFuel_eq fuel b g0 (by omega) (by omega)]

theorem ancestorsRec_unfold_none (s : List Char) (h : rsplitOnce '/' s = none) :
    ancestorsRec s = [s] := by
  unfold ancestorsRec
  cases s with
  | nil => rfl
  | cons x rest => simp [ancestorsWithFuel, h]

theorem ancestorsRec_unfold (s b a : List Char) (h : rsplitOnce '/' s = some (b, a)) :
    ancestorsRec s = s :: ancestorsRec b := by
  unfold ancestorsRec
  cases s with
  | nil => simp [rsplitOnce] at h
  | cons x rest =>
    have hlt : b.length < (x :: rest).length := rsplitOnce_length '/' (x :: rest) b a h
    show ancestorsWithFuel (rest.length + 1) (x :: rest) = _
    simp only [ancestorsWithFuel, h]
    rw [ancestorsWithFuel_eq rest.length b b.length (by simp at hlt; omega) le_rfl]

theorem depth_eq_mi (s : List Char) : Pointer.depth s = (matchIndices '/' s).length := by
  have h := splitOnChar_length '/' s
  have hne := splitOnChar_ne_nil '/' s
  unfold Pointer.depth
  cases hsp : splitOnChar '/' s with
  | nil => exact absurd hsp hne
  | cons hd tl =>
    rw [hsp] at h
    simp only [List.length_cons] at h
    simp only [List.tail_cons]
    omega

theorem matchIndices_cons_self (c : Char) (rest : List Char) :
    matchIndices c (c :: rest) = 0 :: (matchIndices c rest).map (· + 1) := by
  simp [matchIndices]

theorem depth_rsplit (s b a : List Char) (h : rsplitOnce '/' s = some (b, a)) :
    Pointer.depth s = Pointer.depth b + 1 := by
  obtain ⟨hs, ha⟩ := rsplitOnce_eq '/' s b a h
  rw [depth_eq_mi, depth_eq_mi, hs, matchIndices_append, matchIndices_cons_self,
    (matchIndices_nil '/' a).mpr ha]
  simp

theorem depth_zero_of_no_slash (s : List Char) (h : '/' ∉ s) : Pointer.depth s = 0 := by
  rw [depth_eq_mi, (matchIndices_nil '/' s).mpr h]
  rfl

theorem valid_parent (s b a : List Char) (hv : Pointer.Valid s)
    (h : rsplitOnce '/' s = some (b, a)) : Pointer.Valid b := by
  obtain ⟨hs, _⟩ := rsplitOnce_eq '/' s b a h
  rcases hv with rfl | hh
  · cases b <;> simp at hs
  · cases b with
    | nil => exact Or.inl rfl
    | cons x b0 =>
      right
      rw [hs] at hh
      simpa using hh

theorem valid_nonroot_slash (s : List Char) (hv : Pointer.Valid s) (hne : s ≠ []) :
    ∃ b a, rsplitOnce '/' s = some (b, a) := by
  rcases hv with rfl | hh
  · exact absurd rfl hne
  · cases s with
    | nil => exact absurd rfl hne
    | cons x rest =>
      simp only [List.head?_cons, Option.some.injEq] at hh
      cases hr : rsplitOnce '/' (x :: rest) with
      | some p =>
        obtain ⟨b, a⟩ := p
        exact ⟨b, a, rfl⟩
      | none =>
        have hno := (rsplitOnce_none '/' _).mp hr
        exact absurd (by simp [hh]) hno

theorem ancestors_eq_rec (s : List Char) : Pointer.ancestors s = ancestorsRec s := by
  cases h : rsplitOnce '/' s with
  | none =>
    rw [ancestorsRec_unfold_none s h]
    have hno : '/' ∉ s := (rsplitOnce_none '/' s).mp h
    have hmi : matchIndices '/' s = [] := (matchIndices_nil '/' s).mpr hno
    simp [Pointer.ancestors, hmi, List.take_length]
  | some q =>
    obtain ⟨b, a⟩ := q
    rw [ancestorsRec_unfold s b a h]
    obtain ⟨hs, ha⟩ := rsplitOnce_eq '/' s b a h
    have hmi : matchIndices '/' s = matchIndices '/' b ++ [b.length] := by
      rw [hs, matchIndices_append, matchIndices_cons_self,
        (matchIndices_nil '/' a).mpr ha]
      simp
    have hsub : ∀ i ∈ (matchIndices '/' b ++ [b.length]).reverse,
        s.take i = b.take i := by
      intro i hi
      rw [List.mem_reverse] at hi
      have hile : i ≤ b.length := by
        rcases List.mem_append.mp hi with hh | hh
        · exact le_of_lt (matchIndices_lt '/' b i hh)
        · simp only [List.mem_singleton] at hh
          omega
      rw [hs]
      exact List.take_append_of_le_length hile
    have IH := ancestors_eq_rec b
    calc Pointer.ancestors s
        = ((matchIndices '/' s ++ [s.length]).reverse).map (fun i => s.take i) := rfl
      _ = s :: ((matchIndices '/' b ++ [b.length]).reverse).map (fun i => s.take i) := by
          rw [hmi, List.reverse_append]
          simp [List.take_length]
      _ = s :: ((matchIndices '/' b ++ [b.length]).reverse).map (fun i => b.take i) := by
          rw [List.map_congr_left hsub]
      _ = s :: Pointer.ancestors b := rfl
      _ = s :: ancestorsRec b := by rw [IH]
termination_by s.length
decreasing_by exact rsplitOnce_length '/' s _ _ (by assumption)

theorem ancestorsRec_head (s : List Char) : (ancestorsRec s).head? = some s := by
  cases h : rsplitOnce '/' s with
  | none => rw [ancestorsRec_unfold_none s h]; rfl
  | some q =>
    obtain ⟨b, a⟩ := q
    rw [ancestorsRec_unfold s b a h]
    rfl

theorem ancestorsRec_ne_nil (s : List Char) : ancestorsRec s ≠ [] := by
  intro h
  have := ancestorsRec_head s
  rw [h] at this
  simp at this

theorem ancestorsRec_length (s : List Char) :
    (ancestorsRec s).length = Pointer.depth s + 1 := by
  cases h : rsplitOnce '/' s with
  | none =>
    rw [ancestorsRec_unfold_none s h]
    have hno : '/' ∉ s := (rsplitOnce_none '/' s).mp h
    simp [depth_zero_of_no_slash s hno]
  | some q =>
    obtain ⟨b, a⟩ := q
    rw [ancestorsRec_unfold s b a h]
    have IH := ancestorsRec_length b
    simp only [List.length_cons, IH, depth_rsplit s b a h]
termination_by s.length
decreasing_by exact rsplitOnce_length '/' s _ _ (by assumption)

theorem list_getLast?_cons_ne {α : Type} (x : α) (l : List α) (h : l ≠ []) :
    (x :: l).getLast? = l.getLast? := by
  cases l with
  | nil => exact absurd rfl h
  | cons y ys => exact List.getLast?_cons_cons

theorem ancestorsRec_getLast (s : List Char) (hv : Pointer.Valid s) :
    (ancestorsRec s).getLast? = some [] := by
  cases h : rsplitOnce '/' s with
  | none =>
    rw [ancestorsRec_unfold_none s h]
    have hno : '/' ∉ s := (rsplitOnce_none '/' s).mp h
    rcases hv with rfl | hh
    · rfl
    · cases s with
      | nil => rfl
      | cons x rest =>
        simp only [List.head?_cons, Option.some.injEq] at hh
        exact absurd (by simp [hh]) hno
  | some q =>
    obtain ⟨b, a⟩ := q
    rw [ancestorsRec_unfold s b a h,
      list_getLast?_cons_ne s (ancestorsRec b) (ancestorsRec_ne_nil b)]
    exact ancestorsRec_getLast b (valid_parent s b a hv h)
termination_by s.length
decreasing_by exact rsplitOnce_length '/' s _ _ (by assumption)

theorem ancestorsRec_step (s : List Char) : ∀ i : Nat,
    (ancestorsRec s).get? (i + 1) = ((ancestorsRec s).get? i).bind Pointer.parent := by
  intro i
  cases h : rsplitOnce '/' s with
  | none =>
    rw [ancestorsRec_unfold_none s h]
    cases i with
    | zero => simp [Pointer.parent, h]
    | succ j => simp
  | some q =>
    obtain ⟨b, a⟩ := q
    rw [ancestorsRec_unfold s b a h]
    cases i with
    | zero =>
      simp only [List.get?]
      have hh := ancestorsRec_head b
      cases hb : ancestorsRec b with
      | nil => exact absurd hb (ancestorsRec_ne_nil b)
      | cons z zs =>
        rw [hb] at hh
        simp only [List.head?_cons, Option.some.injEq] at hh
        simp [hh, Pointer.parent, h]
    | succ j =>
      simp only [List.get?]
      exact ancestorsRec_step b j
termination_by s.length
decreasing_by exact rsplitOnce_length '/' s _ _ (by assumption)

/-! ## Object lookup and update lemmas -/

theorem lookupKey_set (k : List Char) (x : JsonValue) :
    ∀ fields, (lookupKey k fields).isSome →
      lookupKey k (setKeyFirst k x fields) = some x
  | [], h => by simp [lookupKey] at h
  | (k0, v0) :: rest, h => by
    by_cases hk : k0 = k
    · simp [setKeyFirst, lookupKey, hk]
    · simp only [setKeyFirst, if_neg hk, lookupKey]
      apply lookupKey_set
      simpa [lookupKey, hk] using h

theorem setKeyFirst_self (k : List Char) :
    ∀ fields c, lookupKey k fields = some c → setKeyFirst k c fields = fields
  | [], c, h => by simp [lookupKey] at h
  | (k0, v0) :: rest, c, h => by
    by_cases hk : k0 = k
    · simp only [lookupKey, if_pos hk, Option.some.injEq] at h
      simp [setKeyFirst, hk, h]
    · simp only [lookupKey, if_neg hk] at h
      simp [setKeyFirst, hk, setKeyFirst_self k rest c h]

theorem lookupKey_removeKey (k : List Char) :
    ∀ fields, lookupKey k (removeKey k fields) = none
  | [] => rfl
  | (k0, v0) :: rest => by
    by_cases hk : k0 = k
    · simp [removeKey, hk, lookupKey_removeKey k rest]
    · simp [removeKey, hk, lookupKey, lookupKey_removeKey k rest]

theorem lookupKey_append_none (k : List Char) :
    ∀ A B, lookupKey k A = none → lookupKey k (A ++ B) = lookupKey k B
  | [], B, _ => rfl
  | (k0, v0) :: rest, B, h => by
    by_cases hk : k0 = k
    · simp [lookupKey, hk] at h
    · simp only [lookupKey, if_neg hk] at h
      simp [lookupKey, hk, lookupKey_append_none k rest B h]

theorem lookupKey_inserted (k : List Char) (fields : List (List Char × JsonValue))
    (x : JsonValue) : lookupKey k (removeKey k fields ++ [(k, x)]) = some x := by
  rw [lookupKey_append_none k _ _ (lookupKey_removeKey k fields)]
  simp [lookupKey]

/-! ## Resolution and mutation lemmas -/

theorem resolveTokens_append : ∀ (ts : List (List Char)) (v : JsonValue)
    (us : List (List Char)),
    resolveTokens v (ts ++ us) = (resolveTokens v ts).bind (fun n => resolveTokens n us)
  | [], v, us => by simp [resolveTokens]
  | t :: ts, v, us => by
    cases v with
    | object fields =>
      cases hl : lookupKey t fields with
      | some child =>
        simp only [List.cons_append, resolveTokens, hl]
        exact resolveTokens_append ts child us
      | none => simp [resolveTokens, hl]
    | array xs =>
      cases hp : parseUsize t with
      | some i =>
        cases hg : xs[i]? with
        | some child =>
          simp only [List.cons_append, resolveTokens, hp, hg]
          exact resolveTokens_append ts child us
        | none => simp [resolveTokens, hp, hg]
      | none => simp [resolveTokens, hp]
    | null => rfl
    | bool b => rfl
    | num n => rfl
    | str s => rfl

theorem modifyAt_of_none (f : JsonValue → Except Error (Option JsonValue) × JsonValue) :
    ∀ (ts : List (List Char)) (v : JsonValue),
    resolveTokens v ts = none → modifyAt f v ts = none
  | [], v, h => by simp [resolveTokens] at h
  | t :: ts, v, h => by
    cases v with
    | object fields =>
      cases hl : lookupKey t fields with
      | some child =>
        have h2 : resolveTokens child ts = none := by
          simpa [resolveTokens, hl] using h
        simp [modifyAt, hl, modifyAt_of_none f ts child h2]
      | none => simp [modifyAt, hl]
    | array xs =>
      cases hp : parseUsize t with
      | some i =>
        cases hg : xs[i]? with
        | some child =>
          have h2 : resolveTokens child ts = none := by
            simpa [resolveTokens, hp, hg] using h
          simp [modifyAt, hp, hg, modifyAt_of_none f ts child h2]
        | none => simp [modifyAt, hp, hg]
      | none => simp [modifyAt, hp]
    | null => rfl
    | bool b => rfl
    | num n => rfl
    | str s => rfl

theorem modifyAt_resolve (f : JsonValue → Except Error (Option JsonValue) × JsonValue) :
    ∀ (ts : List (List Char)) (v n : JsonValue), resolveTokens v ts = some n →
    ∃ w, modifyAt f v ts = some ((f n).1, w) ∧ resolveTokens w ts = some ((f n).2)
  | [], v, n, h => by
    simp only [resolveTokens, Option.some.injEq] at h
    subst h
    exact ⟨(f v).2, by simp [modifyAt, resolveTokens]⟩
  | t :: ts, v, n, h => by
    cases v with
    | object fields =>
      cases hl : lookupKey t fields with
      | none => simp [resolveTokens, hl] at h
      | some child =>
        have h2 : resolveTokens child ts = some n := by
          simpa [resolveTokens, hl] using h
        obtain ⟨w, hw1, hw2⟩ := modifyAt_resolve f ts child n h2
        refine ⟨.object (setKeyFirst t w fields), ?_, ?_⟩
        · simp [modifyAt, hl, hw1]
        · have hset : lookupKey t (setKeyFirst t w fields) = some w :=
            lookupKey_set t w fields (by simp [hl])
          simp [resolveTokens, hset, hw2]
    | array xs =>
      cases hp : parseUsize t with
      | none => simp [resolveTokens, hp] at h
      | some i =>
        cases hg : xs[i]? with
        | none => simp [resolveTokens, hp, hg] at h
        | some child =>
          have h2 : resolveTokens child ts = some n := by
            simpa [resolveTokens, hp, hg] using h
          obtain ⟨w, hw1, hw2⟩ := modifyAt_resolve f ts child n h2
          refine ⟨.array (xs.set i w), ?_, ?_⟩
          · simp [modifyAt, hp, hg, hw1]
          · have hi : i < xs.length := by
              by_contra hge
              rw [List.getElem?_eq_none (by omega)] at hg
              exact absurd hg (by simp)
            have hset : (xs.set i w)[i]? = some w := List.getElem?_set_self hi
            simp [resolveTokens, hp, hset, hw2]
    | null => exact absurd h (by simp [resolveTokens])
    | bool b => exact absurd h (by simp [resolveTokens])
    | num n0 => exact absurd h (by simp [resolveTokens])
    | str s => exact absurd h (by simp [resolveTokens])

theorem modifyAt_frame (f : JsonValue → Except Error (Option JsonValue) × JsonValue) :
    ∀ (ts : List (List Char)) (v n : JsonValue), resolveTokens v ts = some n →
    (f n).2 = n → modifyAt f v ts = some ((f n).1, v)
  | [], v, n, h, hfr => by
    simp only [resolveTokens, Option.some.injEq] at h
    subst h
    simp only [modifyAt, Option.some.injEq]
    exact Prod.ext rfl hfr
  | t :: ts, v, n, h, hfr => by
    cases v with
    | object fields =>
      cases hl : lookupKey t fields with
      | none => simp [resolveTokens, hl] at h
      | some child =>
        have h2 : resolveTokens child ts = some n := by
          simpa [resolveTokens, hl] using h
        have IH := modifyAt_frame f ts child n h2 hfr
        simp [modifyAt, hl, IH, setKeyFirst_self t fields child hl]
    | array xs =>
      cases hp : parseUsize t with
      | none => simp [resolveTokens, hp] at h
      | some i =>
        cases hg : xs[i]? with
        | none => simp [resolveTokens, hp, hg] at h
        | some child =>
          have h2 : resolveTokens child ts = some n := by
            simpa [resolveTokens, hp, hg] using h
          have IH := modifyAt_frame f ts child n h2 hfr
          simp [modifyAt, hp, hg, IH, list_set_self xs i child hg]
    | null => exact absurd h (by simp [resolveTokens])
    | bool b => exact absurd h (by simp [resolveTokens])
    | num n0 => exact absurd h (by simp [resolveTokens])
    | str s => exact absurd h (by simp [resolveTokens])

theorem tokenize_rsplit (s b t : List Char) (h : rsplitOnce '/' s = some (b, t)) :
    Pointer.tokenize s = Pointer.tokenize b ++ [decodeToken t] := by
  obtain ⟨hs, ht⟩ := rsplitOnce_eq '/' s b t h
  rw [hs]
  unfold Pointer.tokenize
  rw [splitOnChar_append, splitOnChar_no '/' t ht,
    list_tail_append _ _ (splitOnChar_ne_nil '/' b)]
  simp

/-! ## insert_at helper lemmas -/

theorem jsonPointer_eq_resolve (v : JsonValue) (p : List Char) :
    jsonPointer v p = resolveTokens v (Pointer.tokenize p) := by
  unfold jsonPointer
  by_cases h : Pointer.isRoot p = true
  · rw [if_pos h]
    have hp : p = [] := List.isEmpty_iff.mp h
    subst hp
    simp [Pointer.tokenize, splitOnChar, resolveTokens]
  · rw [if_neg h]

theorem insertKV_not_object (n : JsonValue) (k : List Char) (nv : JsonValue)
    (h : n.isObject = false) :
    insertKV n k nv = (.error .unsupportedInsertion, n) := by
  cases n <;> simp [JsonValue.isObject] at h ⊢ <;> rfl

theorem insertAt_root (v nv : JsonValue) (p : List Char) (h : Pointer.isRoot p = true) :
    insertAt v p nv = (.ok (some v), nv) := by
  unfold insertAt
  rw [if_pos h]

theorem insertAt_nonroot (v nv : JsonValue) (p b t : List Char)
    (hne : Pointer.isRoot p = false) (hsp : rsplitOnce '/' p = some (b, t)) :
    insertAt v p nv =
      match modifyAtPtr v b (fun node => insertKV node (decodeToken t) nv) with
      | some r => r
      | none => (.error .keyNotFound, v) := by
  unfold insertAt
  rw [if_neg (by simp [hne]), hsp]

theorem insertAt_resolved (v n nv : JsonValue) (p b t : List Char)
    (hne : Pointer.isRoot p = false) (hsp : rsplitOnce '/' p = some (b, t))
    (hres : jsonPointer v b = some n) :
    ∃ w, insertAt v p nv = ((insertKV n (decodeToken t) nv).1, w) ∧
      jsonPointer w b = some (insertKV n (decodeToken t) nv).2 := by
  rw [insertAt_nonroot v nv p b t hne hsp]
  unfold modifyAtPtr
  by_cases hb : Pointer.isRoot b = true
  · rw [if_pos hb]
    have hv : n = v := by
      unfold jsonPointer at hres
      rw [if_pos hb] at hres
      simpa using hres.symm
    subst hv
    refine ⟨(insertKV n (decodeToken t) nv).2, rfl, ?_⟩
    unfold jsonPointer
    rw [if_pos hb]
  · rw [if_neg hb]
    rw [jsonPointer_eq_resolve] at hres
    obtain ⟨w, hw1, hw2⟩ :=
      modifyAt_resolve (fun node => insertKV node (decodeToken t) nv)
        (Pointer.tokenize b) v n hres
    refine ⟨w, by rw [hw1], ?_⟩
    rw [jsonPointer_eq_resolve]
    exact hw2

theorem insertAt_unresolved (v nv : JsonValue) (p b t : List Char)
    (hne : Pointer.isRoot p = false) (hsp : rsplitOnce '/' p = some (b, t))
    (hres : jsonPointer v b = none) :
    insertAt v p nv = (.error .keyNotFound, v) := by
  rw [insertAt_nonroot v nv p b t hne hsp]
  unfold modifyAtPtr
  by_cases hb : Pointer.isRoot b = true
  · exfalso
    unfold jsonPointer at hres
    rw [if_pos hb] at hres
    simp at hres
  · rw [if_neg hb]
    rw [jsonPointer_eq_resolve] at hres
    rw [modifyAt_of_none _ _ _ hres]

theorem insertAt_error_frame (v nv : JsonValue) (p : List Char) (e : Error)
    (herr : (insertAt v p nv).1 = .error e) : (insertAt v p nv).2 = v := by
  by_cases hr : Pointer.isRoot p = true
  · rw [insertAt_root v nv p hr] at herr
    simp at herr
  · have hne : Pointer.isRoot p = false := by
      cases hx : Pointer.isRoot p
      · rfl
      · exact absurd hx hr
    cases hsp : rsplitOnce '/' p with
    | none =>
      unfold insertAt at herr ⊢
      rw [if_neg (by simp [hne]), hsp]
    | some q =>
      obtain ⟨b, t⟩ := q
      cases hres : jsonPointer v b with
      | none => rw [insertAt_unresolved v nv p b t hne hsp hres]
      | some n =>
        cases hobj : n.isObject with
        | true =>
          obtain ⟨w, hw1, _⟩ := insertAt_resolved v n nv p b t hne hsp hres
          rw [hw1] at herr
          cases n <;> simp [JsonValue.isObject] at hobj
          simp [insertKV] at herr
        | false =>
          rw [insertAt_nonroot v nv p b t hne hsp]
          unfold modifyAtPtr
          by_cases hb : Pointer.isRoot b = true
          · have hv : n = v := by
              unfold jsonPointer at hres
              rw [if_pos hb] at hres
              simpa using hres.symm
            subst hv
            rw [if_pos hb]
            have hkv := insertKV_not_object n (decodeToken t) nv hobj
            simp [hkv]
          · rw [if_neg hb]
            rw [jsonPointer_eq_resolve] at hres
            have hfr := modifyAt_frame (fun node => insertKV node (decodeToken t) nv)
              (Pointer.tokenize b) v n hres
              (by simp [insertKV_not_object n (decodeToken t) nv hobj])
            rw [hfr]

/-! ## Back-end comparison lemmas -/

theorem parseIndex_canonical (t : List Char) (hc : canonicalIndexTok t) :
    parseIndex t = parseUsize t := by
  obtain ⟨h1, h2⟩ := hc
  unfold parseIndex
  split
  · simp at h1
  · simp at h2
  · rfl

theorem resolveSerde_eq_json : ∀ (ts : List (List Char)) (v : JsonValue),
    (∀ t ∈ ts, canonicalIndexTok t) → resolveTokensSerde v ts = resolveTokens v ts
  | [], v, _ => by cases v <;> rfl
  | t :: ts, v, hc => by
    have hct : canonicalIndexTok t := hc t (by simp)
    have hcts : ∀ u ∈ ts, canonicalIndexTok u := fun u hu => hc u (by simp [hu])
    cases v with
    | object fields =>
      cases hl : lookupKey t fields with
      | some child =>
        simp only [resolveTokensSerde, resolveTokens, hl]
        exact resolveSerde_eq_json ts child hcts
      | none => simp [resolveTokensSerde, resolveTokens, hl]
    | array xs =>
      cases hp : parseUsize t with
      | some i =>
        cases hg : xs[i]? with
        | some child =>
          simp only [resolveTokensSerde, resolveTokens, parseIndex_canonical t hct, hp, hg]
          exact resolveSerde_eq_json ts child hcts
        | none =>
          simp [resolveTokensSerde, resolveTokens, parseIndex_canonical t hct, hp, hg]
      | none =>
        simp [resolveTokensSerde, resolveTokens, parseIndex_canonical t hct, hp]
    | null => rfl
    | bool b => rfl
    | num n => rfl
    | str s => rfl

/-! ## The claims -/

/-- C2: resolution returns the whole tree at the root pointer and otherwise
folds the decoded tokens left to right — key lookup at an object, parsed
and bounds-checked index at an array, absence at any other node shape or
failed step, short-circuiting. It is `Option`-valued, so it never returns
an error. On the example tree, the pointer for zoo id 0 yields the number
1 and the pointer for nope yields absence (in both back-ends). -/
theorem claim_C2_resolution :
    (∀ v : JsonValue, jsonPointer v Pointer.root = some v) ∧
    (∀ (fields : List (List Char × JsonValue)) (t : List Char) (ts : List (List Char)),
      resolveTokens (.object fields) (t :: ts) =
        (lookupKey t fields).bind (fun child => resolveTokens child ts)) ∧
    (∀ (xs : List JsonValue) (t : List Char) (ts : List (List Char)),
      resolveTokens (.array xs) (t :: ts) =
        ((parseUsize t).bind (fun i => xs[i]?)).bind (fun child => resolveTokens child ts)) ∧
    (∀ (v : JsonValue) (t : List Char) (ts : List (List Char)),
      v.isObject = false → v.isArray = false → resolveTokens v (t :: ts) = none) ∧
    (∀ (v : JsonValue) (p : List Char), Pointer.isRoot p = false →
      jsonPointer v p = resolveTokens v (Pointer.tokenize p)) ∧
    jsonPointer exampleTree (cs "/zoo/id/0") = some (.num 1) ∧
    jsonPointer exampleTree (cs "/nope") = none ∧
    serdePointer exampleTree (cs "/zoo/id/0") = some (.num 1) ∧
    serdePointer exampleTree (cs "/nope") = none := by
  refine ⟨fun v => rfl, ?_, ?_, ?_, ?_, rfl, rfl, rfl, rfl⟩
  · intro fields t ts
    cases hl : lookupKey t fields <;> simp [resolveTokens, hl]
  · intro xs t ts
    cases hp : parseUsize t with
    | none => simp [resolveTokens, hp]
    | some i => cases hg : xs[i]? <;> simp [resolveTokens, hp, hg]
  · intro v t ts ho ha
    cases v with
    | object fields => simp [JsonValue.isObject] at ho
    | array xs => simp [JsonValue.isArray] at ha
    | null => rfl
    | bool b => rfl
    | num n => rfl
    | str s0 => rfl
  · intro v p h
    rw [jsonPointer_eq_resolve]

/-- Witness for C2 at concrete inputs: a number is a scalar, so one
traversal step on it yields absence, and a non-root pointer resolves by
the token fold. -/
theorem claim_C2_witness :
    resolveTokens (.num 5) [cs "a"] = none ∧
    jsonPointer exampleTree (cs "/foo") =
      resolveTokens exampleTree (Pointer.tokenize (cs "/foo")) :=
  ⟨claim_C2_resolution.2.2.2.1 (.num 5) (cs "a") [] rfl rfl,
   claim_C2_resolution.2.2.2.2.1 exampleTree (cs "/foo") rfl⟩

/-- C3: decoding a reference token is the two-pass replacement — every
occurrence of the escape pair tilde-one becomes a slash, then, in a second
independent scan, every tilde-zero becomes a tilde; consequently the token
tilde-zero-one decodes to tilde-one (not a slash), tilde-one-zero decodes
to slash-zero, and tilde-one-foo decodes to slash-foo. Both key and
tokenize apply exactly this decoding to each segment. -/
theorem claim_C3_token_decoding :
    decodeToken (cs "~01") = cs "~1" ∧
    decodeToken (cs "~10") = cs "/0" ∧
    decodeToken (cs "~1foo") = cs "/foo" ∧
    (∀ t : List Char, decodeToken t = replace2 '~' '0' '~' (replace2 '~' '1' '/' t)) ∧
    (∀ s b t : List Char, rsplitOnce '/' s = some (b, t) →
      Pointer.key s = some (decodeToken t)) ∧
    (∀ s : List Char, Pointer.tokenize s = (splitOnChar '/' s).tail.map decodeToken) := by
  refine ⟨by decide, by decide, by decide, fun t => rfl, ?_, fun s => rfl⟩
  intro s b t h
  simp [Pointer.key, h]

/-- Witness for C3 at a concrete input: the key of a pointer ending in the
token tilde-zero-one is that token decoded. -/
theorem claim_C3_witness :
    Pointer.key (cs "/x/~01") = some (decodeToken (cs "~01")) :=
  claim_C3_token_decoding.2.2.2.2.1 (cs "/x/~01") (cs "/x") (cs "~01") (by decide)

/-- C4: insert_at with the root pointer always succeeds, replaces the whole
tree with the new value, and returns the previous whole tree (never
`none`). -/
theorem claim_C4_root_insert (v nv : JsonValue) (p : List Char)
    (h : Pointer.isRoot p = true) :
    (insertAt v p nv).1 = .ok (some v) ∧ (insertAt v p nv).2 = nv := by
  rw [insertAt_root v nv p h]
  exact ⟨rfl, rfl⟩

/-- Witness for C4 at a concrete input: replacing the example tree by null
at the root pointer. -/
theorem claim_C4_witness :
    (insertAt exampleTree Pointer.root .null).1 = .ok (some exampleTree) ∧
    (insertAt exampleTree Pointer.root .null).2 = .null :=
  claim_C4_root_insert exampleTree .null Pointer.root (by decide)

/-- C6: construction fails (always with the missing-leading-slash error,
named MissingLeadingBackslash in the code) exactly when the input is
non-empty and does not start with a slash; the empty string and the
one-character slash string both construct successfully and give distinct
pointers — the root versus a one-segment pointer with the empty key. -/
theorem claim_C6_construction :
    (∀ (s : List Char) (e : Error), Pointer.new s = .error e ↔
      (e = .missingLeadingBackslash ∧ s ≠ [] ∧ s.head? ≠ some '/')) ∧
    Pointer.new (cs "path/without/slash") = .error .missingLeadingBackslash ∧
    Pointer.new (cs "") = .ok (cs "") ∧
    Pointer.new (cs "/") = .ok (cs "/") ∧
    cs "" ≠ cs "/" ∧
    Pointer.isRoot (cs "") = true ∧
    Pointer.isRoot (cs "/") = false ∧
    Pointer.depth (cs "") = 0 ∧
    Pointer.depth (cs "/") = 1 ∧
    Pointer.key (cs "/") = some (cs "") := by
  refine ⟨?_, rfl, rfl, rfl, by decide, by decide, by decide,
    by decide, by decide, by decide⟩
  intro s e
  unfold Pointer.new
  by_cases h : s ≠ [] ∧ s.head? ≠ some '/'
  · rw [if_pos h]
    simp [h, eq_comm]
  · rw [if_neg h]
    constructor
    · intro he
      simp at he
    · rintro ⟨_, h2, h3⟩
      exact absurd ⟨h2, h3⟩ h

/-- C7: the order on pointers compares depth first, ascending, and breaks
ties by the underlying encoded strings; a comparison is less-than exactly
when the depth is smaller or the depths agree and the strings compare
less-than. In particular a shallower pointer precedes a deeper one
regardless of alphabetic content. -/
theorem claim_C7_ordering :
    (∀ p q : List Char, Pointer.cmp p q = .lt ↔
      (Pointer.depth p < Pointer.depth q ∨
        (Pointer.depth p = Pointer.depth q ∧ Pointer.cmpChars p q = .lt))) ∧
    Pointer.cmp (cs "/z") (cs "/a/a") = .lt ∧
    Pointer.cmp (cs "/a") (cs "/a/b") = .lt := by
  refine ⟨?_, by decide, by decide⟩
  intro p q
  unfold Pointer.cmp
  rcases Nat.lt_trichotomy (Pointer.depth p) (Pointer.depth q) with hlt | heq | hgt
  · rw [Nat.compare_eq_lt.mpr hlt]
    simp [hlt]
  · rw [Nat.compare_eq_eq.mpr heq]
    simp [heq]
  · rw [Nat.compare_eq_gt.mpr hgt]
    constructor
    · intro hcon
      simp at hcon
    · intro hcon
      rcases hcon with h | ⟨h, _⟩ <;> omega

/-- C8: for every (valid) pointer the ancestors sequence is finite of
length depth plus one, yields the pointer itself first, then at every step
the parent of the previous element, and ends at the root pointer; depth
counts the slash-separated segments, with the root at depth zero. -/
theorem claim_C8_ancestors (s : List Char) (hv : Pointer.Valid s) :
    (Pointer.ancestors s).length = Pointer.depth s + 1 ∧
    (Pointer.ancestors s).head? = some s ∧
    (Pointer.ancestors s).getLast? = some Pointer.root ∧
    (∀ i : Nat, (Pointer.ancestors s).get? (i + 1) =
      ((Pointer.ancestors s).get? i).bind Pointer.parent) := by
  rw [ancestors_eq_rec]
  exact ⟨ancestorsRec_length s, ancestorsRec_head s, ancestorsRec_getLast s hv,
    ancestorsRec_step s⟩

/-- Witness for C8 at a concrete two-segment pointer. -/
theorem claim_C8_witness :
    (Pointer.ancestors (cs "/a/b")).length = Pointer.depth (cs "/a/b") + 1 ∧
    (Pointer.ancestors (cs "/a/b")).head? = some (cs "/a/b") ∧
    (Pointer.ancestors (cs "/a/b")).getLast? = some Pointer.root ∧
    (∀ i : Nat, (Pointer.ancestors (cs "/a/b")).get? (i + 1) =
      ((Pointer.ancestors (cs "/a/b")).get? i).bind Pointer.parent) :=
  claim_C8_ancestors (cs "/a/b") (by decide)

/-- C9: parent is none exactly for the root; for a non-root pointer it is
the pointer with the last slash-segment dropped (so a one-segment
pointer's parent is the root), and the parent is a parent of the original
pointer in the sense of is_parent_of. -/
theorem claim_C9_parent :
    (∀ s : List Char, Pointer.Valid s → (Pointer.parent s = none ↔ s = [])) ∧
    (∀ s b t : List Char, rsplitOnce '/' s = some (b, t) →
      Pointer.parent s = some b ∧ s = b ++ '/' :: t ∧ '/' ∉ t) ∧
    (∀ s : List Char, Pointer.Valid s → Pointer.depth s = 1 →
      Pointer.parent s = some Pointer.root) ∧
    (∀ s pp : List Char, Pointer.parent s = some pp → Pointer.isParentOf pp s) := by
  refine ⟨?_, ?_, ?_, ?_⟩
  · intro s hv
    constructor
    · intro hn
      have hrs : rsplitOnce '/' s = none := by
        unfold Pointer.parent at hn
        cases hq : rsplitOnce '/' s with
        | none => rfl
        | some q => rw [hq] at hn; simp at hn
      have hno : '/' ∉ s := (rsplitOnce_none '/' s).mp hrs
      rcases hv with rfl | hh
      · rfl
      · cases s with
        | nil => rfl
        | cons x rest =>
          simp only [List.head?_cons, Option.some.injEq] at hh
          exact absurd (by simp [hh]) hno
    · rintro rfl
      rfl
  · intro s b t h
    exact ⟨by simp [Pointer.parent, h], (rsplitOnce_eq '/' s b t h).1,
      (rsplitOnce_eq '/' s b t h).2⟩
  · intro s hv hd
    have hne : s ≠ [] := by
      intro hnil
      subst hnil
      simp [Pointer.depth, splitOnChar] at hd
    obtain ⟨b, t, hsp⟩ := valid_nonroot_slash s hv hne
    have hdb : Pointer.depth b = 0 := by
      have := depth_rsplit s b t hsp
      omega
    have hbno : '/' ∉ b := by
      have hmib : matchIndices '/' b = [] := by
        have hh := depth_eq_mi b
        rw [hdb] at hh
        exact List.eq_nil_of_length_eq_zero hh.symm
      exact (matchIndices_nil '/' b).mp hmib
    have hb : b = [] := by
      rcases valid_parent s b t hv hsp with rfl | hh
      · rfl
      · cases b with
        | nil => rfl
        | cons x rest =>
          simp only [List.head?_cons, Option.some.injEq] at hh
          exact absurd (by simp [hh]) hbno
    subst hb
    simp [Pointer.parent, hsp, Pointer.root]
  · intro s pp h
    exact h

/-- Witness for C9 at concrete pointers. -/
theorem claim_C9_witness :
    (Pointer.parent (cs "") = none ↔ (cs "") = []) ∧
    Pointer.parent (cs "/a/b") = some (cs "/a") ∧
    Pointer.parent (cs "/a") = some Pointer.root ∧
    Pointer.isParentOf (cs "/a") (cs "/a/b") :=
  ⟨claim_C9_parent.1 (cs "") (by decide),
   (claim_C9_parent.2.1 (cs "/a/b") (cs "/a") (cs "b") (by decide)).1,
   claim_C9_parent.2.2.1 (cs "/a") (by decide) (by decide),
   claim_C9_parent.2.2.2 (cs "/a/b") (cs "/a") (by decide)⟩

/-- C1: for a non-root pointer, insert_at fails with KeyNotFound exactly
when the parent path does not resolve to a node of the tree, fails with
UnsupportedInsertion exactly when the parent path resolves to a node that
is not an object, and these are its only error outcomes. -/
theorem claim_C1_insert_errors (v nv : JsonValue) (p pp : List Char)
    (hv : Pointer.Valid p) (hne : p ≠ []) (hpar : Pointer.parent p = some pp) :
    ((insertAt v p nv).1 = .error .keyNotFound ↔ jsonPointer v pp = none) ∧
    ((insertAt v p nv).1 = .error .unsupportedInsertion ↔
      ∃ n, jsonPointer v pp = some n ∧ n.isObject = false) ∧
    (∀ e : Error, (insertAt v p nv).1 = .error e →
      e = .keyNotFound ∨ e = .unsupportedInsertion) := by
  have hroot : Pointer.isRoot p = false := by
    cases p with
    | nil => exact absurd rfl hne
    | cons a l => rfl
  obtain ⟨b, t, hsp⟩ := valid_nonroot_slash p hv hne
  have hb : b = pp := by
    unfold Pointer.parent at hpar
    rw [hsp] at hpar
    simpa using hpar
  subst hb
  cases hres : jsonPointer v b with
  | none =>
    rw [insertAt_unresolved v nv p b t hroot hsp hres]
    refine ⟨by simp, by simp, ?_⟩
    intro e he
    simp only [Except.error.injEq] at he
    exact Or.inl he.symm
  | some n =>
    obtain ⟨w, hw1, _⟩ := insertAt_resolved v n nv p b t hroot hsp hres
    cases hobj : n.isObject with
    | true =>
      cases n with
      | object fields =>
        have hfst : (insertAt v p nv).1 = .ok (lookupKey (decodeToken t) fields) := by
          rw [hw1]
          rfl
        refine ⟨?_, ?_, ?_⟩
        · rw [hfst]
          simp [hres]
        · rw [hfst]
          constructor
          · intro hcon
            simp at hcon
          · rintro ⟨n2, hn2, hobj2⟩
            simp only [Option.some.injEq] at hn2
            subst hn2
            simp [JsonValue.isObject] at hobj2
        · intro e he
          rw [hfst] at he
          simp at he
      | null => simp [JsonValue.isObject] at hobj
      | bool b0 => simp [JsonValue.isObject] at hobj
      | num n0 => simp [JsonValue.isObject] at hobj
      | str s0 => simp [JsonValue.isObject] at hobj
      | array xs => simp [JsonValue.isObject] at hobj
    | false =>
      have hkv := insertKV_not_object n (decodeToken t) nv hobj
      have hfst : (insertAt v p nv).1 = .error .unsupportedInsertion := by
        rw [hw1, hkv]
      refine ⟨?_, ?_, ?_⟩
      · rw [hfst]
        simp [hres]
      · rw [hfst]
        simp [hres, hobj]
      · intro e he
        rw [hfst] at he
        simp only [Except.error.injEq] at he
        exact Or.inr he.symm

/-- Witness for C1 at a concrete input with an unresolvable parent path. -/
theorem claim_C1_witness :
    ((insertAt exampleTree (cs "/zoo/a/b") (.num 7)).1 = .error .keyNotFound ↔
      jsonPointer exampleTree (cs "/zoo/a") = none) ∧
    ((insertAt exampleTree (cs "/zoo/a/b") (.num 7)).1 = .error .unsupportedInsertion ↔
      ∃ n, jsonPointer exampleTree (cs "/zoo/a") = some n ∧ n.isObject = false) ∧
    (∀ e : Error, (insertAt exampleTree (cs "/zoo/a/b") (.num 7)).1 = .error e →
      e = .keyNotFound ∨ e = .unsupportedInsertion) :=
  claim_C1_insert_errors exampleTree (.num 7) (cs "/zoo/a/b") (cs "/zoo/a")
    (by decide) (by decide) (by decide)

/-- C5: for a non-root pointer whose parent path resolves to an object,
insert_at stores the new value under the decoded terminal key, returning
the previous value under that exact key (none when absent), and the new
value is then resolvable at the full pointer; when insert_at returns an
error the tree is unchanged; and a successful insert requires the parent
path to resolve in the original tree — no missing intermediate ancestor is
ever created, only the terminal key may be new. -/
theorem claim_C5_insert_effects :
    (∀ (v nv : JsonValue) (p pp k : List Char) (fields : List (List Char × JsonValue)),
      Pointer.Valid p → Pointer.parent p = some pp → Pointer.key p = some k →
      jsonPointer v pp = some (.object fields) →
      (insertAt v p nv).1 = .ok (lookupKey k fields) ∧
      jsonPointer (insertAt v p nv).2 p = some nv) ∧
    (∀ (v nv : JsonValue) (p : List Char) (e : Error),
      (insertAt v p nv).1 = .error e → (insertAt v p nv).2 = v) ∧
    (∀ (v nv : JsonValue) (p pp : List Char) (r : Option JsonValue),
      Pointer.parent p = some pp → (insertAt v p nv).1 = .ok r →
      (jsonPointer v pp).isSome) := by
  refine ⟨?_, ?_, ?_⟩
  · intro v nv p pp k fields hv hpar hkey hres
    cases hsp : rsplitOnce '/' p with
    | none =>
      unfold Pointer.parent at hpar
      rw [hsp] at hpar
      simp at hpar
    | some q =>
      obtain ⟨b, t⟩ := q
      have hb : b = pp := by
        unfold Pointer.parent at hpar
        rw [hsp] at hpar
        simpa using hpar
      subst hb
      have hk : decodeToken t = k := by
        unfold Pointer.key at hkey
        rw [hsp] at hkey
        simpa using hkey
      have hne : p ≠ [] := by
        intro hnil
        subst hnil
        simp [rsplitOnce] at hsp
      have hroot : Pointer.isRoot p = false := by
        cases p with
        | nil => exact absurd rfl hne
        | cons a l => rfl
      obtain ⟨w, hw1, hw2⟩ :=
        insertAt_resolved v (.object fields) nv p b t hroot hsp hres
      rw [hk] at hw1 hw2
      constructor
      · rw [hw1]
        rfl
      · have hsnd : (insertAt v p nv).2 = w := by rw [hw1]
        rw [hsnd, jsonPointer_eq_resolve, tokenize_rsplit p b t hsp, hk,
          resolveTokens_append, ← jsonPointer_eq_resolve, hw2]
        have hlook := lookupKey_inserted k fields nv
        show resolveTokens (.object (removeKey k fields ++ [(k, nv)])) [k] = some nv
        simp only [resolveTokens, hlook]
  · intro v nv p e he
    exact insertAt_error_frame v nv p e he
  · intro v nv p pp r hpar hok
    cases hsp : rsplitOnce '/' p with
    | none =>
      unfold Pointer.parent at hpar
      rw [hsp] at hpar
      simp at hpar
    | some q =>
      obtain ⟨b, t⟩ := q
      have hb : b = pp := by
        unfold Pointer.parent at hpar
        rw [hsp] at hpar
        simpa using hpar
      subst hb
      have hne : p ≠ [] := by
        intro hnil
        subst hnil
        simp [rsplitOnce] at hsp
      have hroot : Pointer.isRoot p = false := by
        cases p with
        | nil => exact absurd rfl hne
        | cons a l => rfl
      cases hres : jsonPointer v b with
      | some n => simp
      | none =>
        rw [insertAt_unresolved v nv p b t hroot hsp hres] at hok
        simp at hok

/-- Witness for C5 at concrete inputs: overwriting the key foo of the
example tree returns its old value and stores the new one; a failing
insert leaves the tree unchanged; a successful insert has a resolvable
parent. -/
theorem claim_C5_witness :
    ((insertAt exampleTree (cs "/foo") (.num 9)).1 =
        .ok (lookupKey (cs "foo") exFields) ∧
      jsonPointer (insertAt exampleTree (cs "/foo") (.num 9)).2 (cs "/foo") =
        some (.num 9)) ∧
    (insertAt exampleTree (cs "/a/b") (.num 1)).2 = exampleTree ∧
    (jsonPointer exampleTree (cs "")).isSome :=
  ⟨claim_C5_insert_effects.1 exampleTree (.num 9) (cs "/foo") (cs "") (cs "foo")
      exFields (by decide) (by decide) (by decide) rfl,
   claim_C5_insert_effects.2.1 exampleTree (.num 1) (cs "/a/b") .keyNotFound rfl,
   claim_C5_insert_effects.2.2 exampleTree (.num 9) (cs "/foo") (cs "")
      (some (.str (cs "bar"))) (by decide) rfl⟩

/-- C10 claims that the json-crate back-end and the serde_json back-end
resolve every pointer identically on corresponding trees, including for
array-index tokens such as zero-one or plus-one. This is false: on the
array 1, 2, 3 the pointer whose single token is zero-one resolves to 2 in
the json back-end (Rust usize parsing accepts leading zeros) and to
absence in serde_json (its parse_index rejects leading zeros); likewise
for a plus-prefixed token. -/
theorem claim_C10_counterexample :
    jsonPointer (.array [.num 1, .num 2, .num 3]) (cs "/01") = some (.num 2) ∧
    serdePointer (.array [.num 1, .num 2, .num 3]) (cs "/01") = none ∧
    jsonPointer (.array [.num 1, .num 2, .num 3]) (cs "/+1") = some (.num 2) ∧
    serdePointer (.array [.num 1, .num 2, .num 3]) (cs "/+1") = none :=
  ⟨rfl, rfl, rfl, rfl⟩

/-- C10 (amended): the two back-ends resolve identically on every tree for
every valid pointer all of whose decoded tokens are canonical index
candidates — no leading plus sign, and a token starting with the digit
zero is exactly the single digit zero (non-index tokens such as plain keys
satisfy this trivially); on such pointers serde_json's parse_index and
Rust usize parsing agree, so the two folds coincide. -/
theorem claim_C10_backend_agreement (v : JsonValue) (p : List Char)
    (hv : Pointer.Valid p)
    (hc : ∀ t ∈ Pointer.tokenize p, canonicalIndexTok t) :
    serdePointer v p = jsonPointer v p := by
  rcases hv with rfl | hh
  · rfl
  · cases p with
    | nil => rfl
    | cons x rest =>
      simp only [List.head?_cons, Option.some.injEq] at hh
      subst hh
      unfold serdePointer jsonPointer
      rw [if_neg (show ¬('/' :: rest) = [] by simp),
        if_neg (show ¬('/' :: rest).head? ≠ some '/' by simp),
        if_neg (show ¬Pointer.isRoot ('/' :: rest) = true by
          simp [Pointer.isRoot, List.isEmpty_cons])]
      exact resolveSerde_eq_json (Pointer.tokenize ('/' :: rest)) v hc

/-- Witness for the amended C10 at a concrete input: a pointer with the
canonical index token zero resolves identically in both back-ends. -/
theorem claim_C10_witness :
    serdePointer (.array [.num 1, .num 2, .num 3]) (cs "/0") =
      jsonPointer (.array [.num 1, .num 2, .num 3]) (cs "/0") :=
  claim_C10_backend_agreement (.array [.num 1, .num 2, .num 3]) (cs "/0")
    (by decide) (by decide)
